import Mathlib

/-!
A shallow embedding in Lean 4 of the core of the `2fa` command-line
two-factor-authentication agent (Go, `main.go` and `import.go`), together
with theorems settling the frozen claims about its specification.

Bytes are modelled as `Nat` values (each < 256 in practice) and byte
strings as `List Nat`.  Go strings are byte strings, so names, file
lines and secrets are all `List Nat` here.  String literals are turned
into byte lists with `bs`; all inputs used in the development are ASCII,
and `toLowerByte` models `strings.ToLower` on the ASCII subset that the
development exercises.
-/

set_option maxRecDepth 1000000

namespace TwoFA

/-- Turn an ASCII string literal into its byte list. -/
def bs (s : String) : List Nat := s.data.map Char.toNat

/-- ASCII lower-casing of one byte (models `strings.ToLower` on ASCII input). -/
def toLowerByte (b : Nat) : Nat := if 65 ≤ b ∧ b ≤ 90 then b + 32 else b

/-- ASCII lower-casing of a byte string. -/
def lowerBytes (l : List Nat) : List Nat := l.map toLowerByte

/-- ASCII upper-casing of one byte (models `strings.ToUpper` on ASCII input). -/
def toUpperByte (b : Nat) : Nat := if 97 ≤ b ∧ b ≤ 122 then b - 32 else b

/-- Byte-wise lexicographic strict order, as Go's `<` on strings. -/
def lexLess : List Nat → List Nat → Bool
  | [], [] => false
  | [], _ :: _ => true
  | _ :: _, [] => false
  | a :: as, b :: bs2 =>
    if a < b then true else if b < a then false else lexLess as bs2

/-- Split a byte list on a separator byte, keeping empty pieces, as
`bytes.Split(s, sep)` with a one-byte separator: always returns at least
one piece. -/
def splitByte (sep : Nat) : List Nat → List (List Nat)
  | [] => [[]]
  | b :: rest =>
    let r := splitByte sep rest
    if b == sep then [] :: r
    else match r with
      | [] => [[b]]
      | p :: ps => (b :: p) :: ps

/-- Split after every newline byte, as `bytes.SplitAfter(data, "\n")`:
each piece except possibly the last ends with the newline, and a final
empty piece appears when the data ends with a newline. -/
def splitAfterNL : List Nat → List (List Nat)
  | [] => [[]]
  | b :: rest =>
    let r := splitAfterNL rest
    if b == 10 then [b] :: r
    else match r with
      | [] => [[b]]
      | p :: ps => (b :: p) :: ps

/-- Drop one trailing occurrence of `suf`, as `bytes.TrimSuffix`. -/
def trimOneNL (l : List Nat) : List Nat :=
  if l ≠ [] ∧ l.getLast? = some 10 then l.dropLast else l

/-- Join byte-list pieces with a separator byte, as `bytes.Join(ps, sep)`. -/
def joinSp : List (List Nat) → List Nat
  | [] => []
  | [p] => p
  | p :: q :: ps => p ++ 32 :: joinSp (q :: ps)

end TwoFA

namespace TwoFA

/-! ### Base32 codec

Models `base32.StdEncoding.DecodeString` (RFC 4648 standard alphabet with
`=` padding) on inputs free of `\r`/`\n`, composed with the upper-casing
done by `decodeKey`. -/

/-- Value of one standard-base32 alphabet byte, `none` when outside the
alphabet `A`-`Z`, `2`-`7`. -/
def b32Val (b : Nat) : Option Nat :=
  if 65 ≤ b ∧ b ≤ 90 then some (b - 65)
  else if 50 ≤ b ∧ b ≤ 55 then some (b - 50 + 26)
  else none

/-- Number of data characters in an 8-character base32 block: the count
before the first `=`; everything after the first `=` must be `=`. -/
def b32DataLen (blk : List Nat) : Option Nat :=
  let d := (blk.takeWhile (fun b => b ≠ 61)).length
  if blk.drop d |>.all (fun b => b = 61) then some d else none

/-- Output byte count for a block with `d` data characters; `none` for the
data lengths Go's decoder rejects. -/
def b32OutLen (d : Nat) : Option Nat :=
  if d = 2 then some 1 else if d = 4 then some 2 else if d = 5 then some 3
  else if d = 7 then some 4 else if d = 8 then some 5 else none

/-- Assemble the 5-bit values of the data characters into a big-endian
bit buffer and cut the leading `n` bytes. -/
def b32Bytes (vals : List Nat) (n : Nat) : List Nat :=
  let bits := vals.foldl (fun acc v => acc * 32 + v) 0
  let total := vals.length * 5
  (List.range n).map (fun i => bits / 2 ^ (total - 8 * (i + 1)) % 256)

/-- Decode one 8-character block; `isLast` tells whether padding may
appear (Go rejects padding in a non-final block). -/
def b32Block (blk : List Nat) (isLast : Bool) : Option (List Nat) := do
  let d ← b32DataLen blk
  let n ← b32OutLen d
  if d < 8 ∧ ¬ isLast then none else
  let vals ← (blk.take d).mapM b32Val
  pure (b32Bytes vals n)

/-- Decode a base32 byte string, block by block; a length that is not a
multiple of 8 is rejected, and padding may appear only in the last block. -/
def b32Decode : List Nat → Option (List Nat)
  | [] => some []
  | c0 :: c1 :: c2 :: c3 :: c4 :: c5 :: c6 :: c7 :: rest => do
    let hd ← b32Block [c0, c1, c2, c3, c4, c5, c6, c7] rest.isEmpty
    let tl ← b32Decode rest
    pure (hd ++ tl)
  | _ => none

/-- `decodeKey(key)` = base32-decode the upper-cased key. -/
def decodeKey (key : List Nat) : Option (List Nat) :=
  b32Decode (key.map toUpperByte)

example : decodeKey (bs "mzxw6ytb") = some (bs "fooba") := by decide
example : decodeKey (bs "MZXW6YQ=") = some (bs "foob") := by decide
example : decodeKey (bs "MZXW6===") = some (bs "foo") := by decide
example : decodeKey (bs "M1XW6===") = none := by decide

end TwoFA

namespace TwoFA

/-! ### SHA-1, HMAC-SHA1 and the one-time-password generators

Models `crypto/sha1`, `crypto/hmac` and the `hotp`/`totp` functions of
`main.go`.  32-bit machine words are `Nat` values reduced modulo `2^32`
explicitly. -/

/-- Reduce to a 32-bit word. -/
def w32 (n : Nat) : Nat := n % 4294967296

/-- Rotate a 32-bit word left by `s` bits. -/
def rotl (s n : Nat) : Nat := w32 (n <<< s) + n >>> (32 - s)

/-- Big-endian 8-byte encoding of a 64-bit value. -/
def be64 (n : Nat) : List Nat :=
  [n >>> 56 % 256, n >>> 48 % 256, n >>> 40 % 256, n >>> 32 % 256,
   n >>> 24 % 256, n >>> 16 % 256, n >>> 8 % 256, n % 256]

/-- Big-endian 4-byte encoding of a 32-bit word. -/
def be32 (n : Nat) : List Nat :=
  [n >>> 24 % 256, n >>> 16 % 256, n >>> 8 % 256, n % 256]

/-- SHA-1 padding: append `0x80`, zero bytes to 56 mod 64, and the
64-bit big-endian bit length of the message. -/
def sha1Pad (msg : List Nat) : List Nat :=
  msg ++ 128 :: List.replicate ((119 - msg.length % 64) % 64) 0 ++ be64 (8 * msg.length)

/-- Group bytes into big-endian 32-bit words. -/
def beWords : List Nat → List Nat
  | b0 :: b1 :: b2 :: b3 :: rest =>
    (b0 * 16777216 + b1 * 65536 + b2 * 256 + b3) :: beWords rest
  | _ => []

/-- Message-schedule extension over the reversed word list: the head of
`acc` is the newest word `w[n-1]`, so the new word is
`rotl 1 (w[n-3] xor w[n-8] xor w[n-14] xor w[n-16])`. -/
def sha1ExtAux : Nat → List Nat → List Nat
  | 0, acc => acc.reverse
  | f + 1, acc =>
    sha1ExtAux f
      (rotl 1 (acc.getD 2 0 ^^^ acc.getD 7 0 ^^^ acc.getD 13 0 ^^^ acc.getD 15 0) :: acc)

/-- Extend the 16-word schedule by `fuel` further words. -/
def sha1Extend (fuel : Nat) (ws : List Nat) : List Nat :=
  sha1ExtAux fuel ws.reverse

/-- Round function and constant for SHA-1 round `t`. -/
def sha1FK (t b c d : Nat) : Nat × Nat :=
  if t < 20 then ((b &&& c) ||| ((b ^^^ 4294967295) &&& d), 1518500249)
  else if t < 40 then (b ^^^ c ^^^ d, 1859775393)
  else if t < 60 then ((b &&& c) ||| (b &&& d) ||| (c &&& d), 2400959708)
  else (b ^^^ c ^^^ d, 3395469782)

/-- SHA-1 compression rounds over the word schedule, threading the round
index and the five-word state. -/
def sha1Rounds (t : Nat) : List Nat → Nat × Nat × Nat × Nat × Nat → Nat × Nat × Nat × Nat × Nat
  | [], st => st
  | wt :: ws, (a, b, c, d, e) =>
    let fk := sha1FK t b c d
    let temp := w32 (rotl 5 a + fk.1 + e + fk.2 + wt)
    sha1Rounds (t + 1) ws (temp, a, rotl 30 b, c, d)

/-- Process one 64-byte chunk, updating the five hash words. -/
def sha1Chunk (h : Nat × Nat × Nat × Nat × Nat) (chunk : List Nat) :
    Nat × Nat × Nat × Nat × Nat :=
  let (h0, h1, h2, h3, h4) := h
  let st := sha1Rounds 0 (sha1Extend 64 (beWords chunk)) (h0, h1, h2, h3, h4)
  (w32 (h0 + st.1), w32 (h1 + st.2.1), w32 (h2 + st.2.2.1),
   w32 (h3 + st.2.2.2.1), w32 (h4 + st.2.2.2.2))

/-- Split a padded message into 64-byte chunks and fold the compression
function over them; the fuel argument (an upper bound on the number of
chunks) keeps the recursion structural. -/
def sha1Chunks : Nat → (Nat × Nat × Nat × Nat × Nat) → List Nat → Nat × Nat × Nat × Nat × Nat
  | 0, h, _ => h
  | _, h, [] => h
  | f + 1, h, b0 :: rest =>
    sha1Chunks f (sha1Chunk h ((b0 :: rest).take 64)) (rest.drop 63)

/-- SHA-1 digest of a byte string, as 20 bytes. -/
def sha1 (msg : List Nat) : List Nat :=
  let p := sha1Pad msg
  let st := sha1Chunks p.length
    (1732584193, 4023233417, 2562383102, 271733878, 3285377520) p
  be32 st.1 ++ be32 st.2.1 ++ be32 st.2.2.1 ++ be32 st.2.2.2.1 ++ be32 st.2.2.2.2

/-- HMAC-SHA1 with block size 64, as `hmac.New(sha1.New, key)`. -/
def hmacSha1 (key msg : List Nat) : List Nat :=
  let k0 := if 64 < key.length then sha1 key else key
  let kp := k0 ++ List.replicate (64 - k0.length) 0
  sha1 (kp.map (fun b => b ^^^ 92) ++ sha1 (kp.map (fun b => b ^^^ 54) ++ msg))

/-- `hotp(key, counter, digits)`: HMAC-SHA1 of the 8-byte big-endian
counter, dynamic truncation by the low 4 bits of the last byte, sign bit
masked, reduced modulo `10 ^ min digits 8`. -/
def hotp (key : List Nat) (counter : Nat) (digits : Nat) : Nat :=
  let sum := hmacSha1 key (be64 (counter % 18446744073709551616))
  let off := sum.getD 19 0 &&& 15
  let bytes4 := (sum.drop off).take 4
  let v := (bytes4.foldl (fun acc b => acc * 256 + b) 0) &&& 2147483647
  v % 10 ^ min digits 8

/-- `totp(key, t, digits)` for a time of `tn` Unix nanoseconds:
the counter is `tn / 30e9` (a 30-second step). -/
def totp (key : List Nat) (tn : Nat) (digits : Nat) : Nat :=
  hotp key (tn / 30000000000) digits

end TwoFA

namespace TwoFA

/-! ### The record store: `readKeychain` -/

/-- One stored key: decoded secret, digit count, and byte offset of the
counter field in the backing file (`0` for time-based keys). -/
structure Key where
  raw : List Nat
  digits : Nat
  offset : Nat
deriving DecidableEq, Repr

/-- The in-memory keychain: retained raw file bytes, the name → key map
(an association list updated in place, modelling the Go map), and the
line numbers reported as malformed. -/
structure Keychain where
  data : List Nat
  keys : List (List Nat × Key)
  warnings : List Nat
deriving DecidableEq, Repr

/-- `counterLen = 20`. -/
def counterLen : Nat := 20

/-- Map insertion: overwrite the entry of `nm` in place, or append. -/
def upsert (m : List (List Nat × Key)) (nm : List Nat) (k : Key) :
    List (List Nat × Key) :=
  match m with
  | [] => [(nm, k)]
  | (n', k') :: rest =>
    if n' == nm then (nm, k) :: rest else (n', k') :: upsert rest nm k

/-- Map lookup. -/
def findKey (m : List (List Nat × Key)) (nm : List Nat) : Option Key :=
  (m.find? (fun p => p.1 == nm)).map (·.2)

/-- `strconv.ParseUint(s, 10, 64)`: non-empty, decimal digits only, and
the value must fit in 64 bits. -/
def parseUint64 (s : List Nat) : Option Nat :=
  if s.isEmpty then none
  else if s.all (fun b => 48 ≤ b ∧ b ≤ 57) then
    let v := s.foldl (fun acc b => acc * 10 + (b - 48)) 0
    if v < 18446744073709551616 then some v else none
  else none

/-- Whether field `i` of `f` is a valid digit-count marker: a single
byte `'6'`..`'8'` immediately followed by a further non-empty field. -/
def isMarkerAt (f : List (List Nat)) (i : Nat) : Bool :=
  (match f.getD i [] with
   | [d] => decide (54 ≤ d ∧ d ≤ 56)
   | _ => false)
  && decide (i + 1 < f.length) && !(f.getD (i + 1) []).isEmpty

/-- Downward scan `for i := len(f)-1; i >= 1; i--` stopping at the first
(right-most) marker position. -/
def scanDown (f : List (List Nat)) : Nat → Option Nat
  | 0 => none
  | i + 1 => if isMarkerAt f (i + 1) then some (i + 1) else scanDown f i

/-- The digit-count marker position chosen by `readKeychain`. -/
def digitPos (f : List (List Nat)) : Option Nat := scanDown f (f.length - 1)

/-- Outcome of analysing one raw file line. -/
inductive LineResult where
  | blank : LineResult
  | record : List Nat → Key → LineResult
  | malformed : LineResult
deriving DecidableEq, Repr

/-- Cursor-independent part of the analysis of one raw line: blank, a
record (name, decoded secret, digit count, counter-field flag), or
malformed. -/
inductive LineCore where
  | blank : LineCore
  | record : List Nat → List Nat → Nat → Bool → LineCore
  | malformed : LineCore
deriving DecidableEq, Repr

/-- Classify one raw line (still carrying its newline, if any) exactly
as the parsing loop of `readKeychain` does. -/
def classifyLine (line : List Nat) : LineCore :=
  let f := splitByte 32 (trimOneNL line)
  if f = [[]] then .blank
  else
    match digitPos f with
    | none => .malformed
    | some i =>
      if 1 ≤ i ∧ i + 1 < f.length then
        match decodeKey (f.getD (i + 1) []) with
        | none => .malformed
        | some raw =>
          let name := joinSp (f.take i)
          let digits := (f.getD i []).getD 0 0 - 48
          if f.length = i + 2 then .record name raw digits false
          else if f.length = i + 3 ∧ (f.getD (i + 2) []).length = counterLen then
            match parseUint64 (f.getD (i + 2) []) with
            | some _ => .record name raw digits true
            | none => .malformed
          else .malformed
      else .malformed

/-- The full analysis of one raw line: attach to an accepted counter
field its byte offset, computed from `cursorEnd`, the byte offset just
past this line (`offset - counterLen`, minus one more when the line
ends with the newline). -/
def analyzeLine (line : List Nat) (cursorEnd : Nat) : LineResult :=
  match classifyLine line with
  | .blank => .blank
  | .malformed => .malformed
  | .record name raw digits hasCounter =>
    .record name
      ⟨raw, digits,
       if hasCounter then
         cursorEnd - counterLen - (if line.getLast? = some 10 then 1 else 0)
       else 0⟩

/-- The line loop of `readKeychain`: thread line number, byte cursor,
the map and the warning list over the raw lines. -/
def loadLoop : List (List Nat) → Nat → Nat → List (List Nat × Key) → List Nat →
    List (List Nat × Key) × List Nat
  | [], _, _, ks, ws => (ks, ws)
  | line :: rest, lineno, cursor, ks, ws =>
    let cursorEnd := cursor + line.length
    match analyzeLine line cursorEnd with
    | .blank => loadLoop rest (lineno + 1) cursorEnd ks ws
    | .record nm k => loadLoop rest (lineno + 1) cursorEnd (upsert ks nm k) ws
    | .malformed => loadLoop rest (lineno + 1) cursorEnd ks (ws ++ [lineno])

/-- `readKeychain` on the raw bytes of the keychain file (an absent file
is the empty byte string). -/
def readKeychain (data : List Nat) : Keychain :=
  let r := loadLoop (splitAfterNL data) 1 0 [] []
  ⟨data, r.1, r.2⟩

end TwoFA

namespace TwoFA

/-! ### Code emission (`Keychain.code`) -/

/-- Errors surfaced by the operations (Go exits via `log.Fatalf`). -/
inductive CodeErr where
  | corruptCounter : CodeErr
  | ioError : CodeErr
  | noSuchKey : CodeErr
deriving DecidableEq, Repr

/-- Decimal digits of `n` (ASCII), fuel-driven. -/
def natDigitsAux : Nat → Nat → List Nat
  | 0, _ => []
  | f + 1, n => if n = 0 then [] else natDigitsAux f (n / 10) ++ [48 + n % 10]

/-- Decimal rendering of `n` (ASCII). -/
def decimalDigits (n : Nat) : List Nat :=
  if n = 0 then [48] else natDigitsAux 30 n

/-- `fmt.Sprintf("%0*d", width, n)` for a non-negative value. -/
def padNum (width n : Nat) : List Nat :=
  let d := decimalDigits n
  List.replicate (width - d.length) 48 ++ d

/-- A positioned write (`WriteAt`) of `patch` at byte offset `off`. -/
def writeAt (data : List Nat) (off : Nat) (patch : List Nat) : List Nat :=
  data.take off ++ patch ++ data.drop (off + patch.length)

/-- `Keychain.code` on one key: for an HOTP key (non-zero counter
offset) parse the stored counter from the retained bytes, increment it
(64-bit), derive the code from the new value and write the new 20-digit
field back at the same offset; for a TOTP key derive from the current
time.  `writeOk` models whether the `OpenFile`/`WriteAt`/`Close` of the
keychain file succeeds; on failure the operation aborts (`log.Fatalf`)
and no code is returned.  The result carries the rendered code and the
file bytes after the operation. -/
def codeOp (data : List Nat) (k : Key) (tn : Nat) (writeOk : Bool) :
    Except CodeErr (List Nat × List Nat) :=
  if k.offset ≠ 0 then
    match parseUint64 ((data.drop k.offset).take counterLen) with
    | none => .error .corruptCounter
    | some n0 =>
      let n := (n0 + 1) % 18446744073709551616
      let c := hotp k.raw n k.digits
      if writeOk then .ok (padNum k.digits c, writeAt data k.offset (padNum counterLen n))
      else .error .ioError
  else
    .ok (padNum k.digits (totp k.raw tn k.digits), data)

end TwoFA

namespace TwoFA

/-! ### Sorting and the whole-file rewrite (`rewriteSorted`, `add`)

`sort.Slice` is an unstable sort; any output it may produce is a
permutation of the input that is pairwise consistent with the supplied
`less` comparator.  The model fixes one such implementation, the
insertion sort Go itself uses on short slices (an element moves left
only past elements it is strictly `less` than, so the model is stable,
as Go's insertion sort is). -/

/-- Insert `a` into `l`, placing it before the first element it is
strictly `less` than. -/
def insertGo (less : α → α → Bool) (a : α) : List α → List α
  | [] => [a]
  | b :: l => if less a b then a :: b :: l else b :: insertGo less a l

/-- Insertion sort, consuming the input left to right. -/
def sortGo (less : α → α → Bool) (l : List α) : List α :=
  l.foldl (fun acc a => insertGo less a acc) []

/-- First space-separated field of a line (`strings.Split(line, " ")[0]`). -/
def firstField (line : List Nat) : List Nat := (splitByte 32 line).getD 0 []

/-- The `less` comparator of `rewriteSorted`: byte-wise comparison of
the lower-cased first fields. -/
def lineLess (a b : List Nat) : Bool :=
  lexLess (lowerBytes (firstField a)) (lowerBytes (firstField b))

/-- The pre-existing lines kept by `rewriteSorted`: split the retained
bytes (one trailing newline removed) on newlines and drop empty lines;
empty retained data contributes nothing. -/
def existingLines (data : List Nat) : List (List Nat) :=
  if data.length > 0 then
    (splitByte 10 (trimOneNL data)).filter (fun l => l.length > 0)
  else []

/-- `rewriteSorted`: combine existing lines with the new entries and
sort by the comparator; the file is then rewritten from this list. -/
def rewriteSorted (data : List Nat) (newEntries : List (List Nat)) : List (List Nat) :=
  sortGo lineLess (existingLines data ++ newEntries)

/-- Serialize the line list as written back to the file (each line
followed by a newline). -/
def renderFile (lines : List (List Nat)) : List Nat :=
  (lines.map (fun l => l ++ [10])).flatten

/-- The record line formatted by `add`:
`name size secret`, plus a 20-zero counter field for an HOTP key. -/
def addLine (name secretText : List Nat) (size : Nat) (isHotp : Bool) : List Nat :=
  name ++ [32] ++ decimalDigits size ++ [32] ++ secretText
    ++ (if isHotp then 32 :: List.replicate 20 48 else [])

/-- File bytes produced by `add`: the whole file rewritten from the
merged, sorted line set. -/
def addFile (data : List Nat) (line : List Nat) : List Nat :=
  renderFile (rewriteSorted data [line])

end TwoFA

namespace TwoFA

/-! ### The resolver (`fuzzyMatch`, `show`) -/

/-- `fuzzy.Match(source, target)`: the runes of `source` appear in
order within `target` (subsequence test). -/
def subseq : List Nat → List Nat → Bool
  | [], _ => true
  | _ :: _, [] => false
  | a :: as, b :: bs2 => if a == b then subseq as bs2 else subseq (a :: as) bs2

/-- Whether `needle` occurs at the head of the list. -/
def atHead : List Nat → List Nat → Bool
  | _, [] => true
  | [], _ :: _ => false
  | h :: hs, n :: ns => h == n && atHead hs ns

/-- `strings.Contains(hay, needle)`. -/
def containsSub (needle : List Nat) : List Nat → Bool
  | [] => needle.isEmpty
  | h :: hs => atHead (h :: hs) needle || containsSub needle hs

/-- `Keychain.fuzzyMatch(search)`.  `names` is the stored key set in
the order one Go map iteration enumerates it (that order is
unspecified, so it is a parameter here): lower-case the search string
and the names, keep the names the search is a subsequence of — this is
`fuzzy.RankFind`, which preserves target order — and map each survivor
back to the first stored name with that lower-casing; when no name
survives, fall back to case-insensitive substring containment with the
result sorted byte-lexicographically (`sort.Strings`). -/
def fuzzyMatch (names : List (List Nat)) (search : List Nat) : List (List Nat) :=
  let search' := lowerBytes search
  let lowerNames := names.map lowerBytes
  let ranks := lowerNames.filter (fun t => subseq search' t)
  if ranks.length > 0 then
    ranks.filterMap (fun t => names.find? (fun nm => lowerBytes nm == t))
  else
    sortGo lexLess (names.filter (fun nm => containsSub search' (lowerBytes nm)))

/-- Outcome of `Keychain.show`'s name resolution. -/
inductive ShowResult where
  | exact : List Nat → ShowResult
  | single : List Nat → ShowResult
  | multiple : List (List Nat) → ShowResult
  | noSuchKey : ShowResult
deriving DecidableEq, Repr

/-- The resolution performed by `Keychain.show`: a verbatim stored name
short-circuits the fuzzy logic; otherwise zero fuzzy-match results fail
with "no such key", one is used directly, several are all reported. -/
def resolveName (names : List (List Nat)) (query : List Nat) : ShowResult :=
  if names.contains query then .exact query
  else
    match fuzzyMatch names query with
    | [] => .noSuchKey
    | [m] => .single m
    | ms => .multiple ms

end TwoFA

namespace TwoFA

/-! ### `Keychain.showAll` -/

/-- The loop of `showAll` over the sorted names, threading the file
bytes through each code computation: a key with a counter offset is
rendered as `digits` dashes without computing (or advancing) anything;
a time-based key's code is computed via `codeOp`. -/
def showAllLoop (keys : List (List Nat × Key)) (tn : Nat) :
    List (List Nat) → List Nat → Except CodeErr (List (List Nat × List Nat) × List Nat)
  | [], data => .ok ([], data)
  | nm :: rest, data =>
    let k := (findKey keys nm).getD ⟨[], 0, 0⟩
    if k.offset = 0 then
      match codeOp data k tn true with
      | .error e => .error e
      | .ok (c, data') =>
        match showAllLoop keys tn rest data' with
        | .error e => .error e
        | .ok (entries, dataF) => .ok ((c, nm) :: entries, dataF)
    else
      match showAllLoop keys tn rest data with
      | .error e => .error e
      | .ok (entries, dataF) => .ok ((List.replicate k.digits 45, nm) :: entries, dataF)

/-- `Keychain.showAll`: emit an entry for every stored key in sorted
name order. -/
def showAll (kc : Keychain) (tn : Nat) :
    Except CodeErr (List (List Nat × List Nat) × List Nat) :=
  showAllLoop kc.keys tn (sortGo lexLess (kc.keys.map (·.1))) kc.data

/-- Names of the stored keys. -/
def namesOf (kc : Keychain) : List (List Nat) := kc.keys.map (·.1)

end TwoFA

namespace TwoFA

/-! ### Helper lemmas: decimal rendering and parsing -/

theorem natDigitsAux_digits (f : Nat) : ∀ n, ∀ b ∈ natDigitsAux f n, 48 ≤ b ∧ b ≤ 57 := by
  induction f with
  | zero => intro n b hb; simp [natDigitsAux] at hb
  | succ f ih =>
    intro n b hb
    simp only [natDigitsAux] at hb
    split at hb
    · simp at hb
    · rcases List.mem_append.mp hb with h | h
      · exact ih _ _ h
      · simp at h
        omega

theorem natDigitsAux_foldl (f : Nat) : ∀ n acc, n < 10 ^ f →
    (natDigitsAux f n).foldl (fun a b => a * 10 + (b - 48)) acc =
      acc * 10 ^ (natDigitsAux f n).length + n := by
  induction f with
  | zero =>
    intro n acc h
    interval_cases n
    simp [natDigitsAux]
  | succ f ih =>
    intro n acc h
    simp only [natDigitsAux]
    split
    · simp only [List.foldl_nil, List.length_nil, pow_zero, mul_one]
      omega
    · rw [List.foldl_append, List.length_append]
      have hdiv : n / 10 < 10 ^ f := by
        rw [pow_succ] at h
        omega
      rw [ih _ acc hdiv]
      simp only [List.foldl_cons, List.foldl_nil, List.length_cons, List.length_nil]
      have : 48 + n % 10 - 48 = n % 10 := by omega
      rw [this, pow_succ]
      have := Nat.div_add_mod n 10
      ring_nf
      omega

theorem natDigitsAux_ne_nil (f n : Nat) (h0 : n ≠ 0) (hf : 0 < f) :
    natDigitsAux f n ≠ [] := by
  cases f with
  | zero => omega
  | succ f =>
    simp only [natDigitsAux, h0, if_false]
    intro h
    exact absurd h (List.append_ne_nil_of_right_ne_nil _ (by simp))

theorem natDigitsAux_length (f : Nat) : ∀ n k, n < 10 ^ k → (natDigitsAux f n).length ≤ k := by
  induction f with
  | zero => intro n k _; simp [natDigitsAux]
  | succ f ih =>
    intro n k h
    simp only [natDigitsAux]
    split
    · simp
    · rw [List.length_append]
      cases k with
      | zero =>
        simp only [pow_zero, Nat.lt_one_iff] at h
        omega
      | succ k =>
        have hdiv : n / 10 < 10 ^ k := by
          rw [pow_succ] at h
          omega
        have := ih (n / 10) k hdiv
        simp only [List.length_cons, List.length_nil]
        omega

theorem decimalDigits_digits (n : Nat) : ∀ b ∈ decimalDigits n, 48 ≤ b ∧ b ≤ 57 := by
  intro b hb
  unfold decimalDigits at hb
  split at hb
  · simp at hb; omega
  · exact natDigitsAux_digits 30 n b hb

theorem decimalDigits_ne_nil (n : Nat) : decimalDigits n ≠ [] := by
  unfold decimalDigits
  split
  · simp
  · exact natDigitsAux_ne_nil 30 n (by assumption) (by omega)

theorem decimalDigits_foldl (n : Nat) (h : n < 10 ^ 30) :
    (decimalDigits n).foldl (fun a b => a * 10 + (b - 48)) 0 = n := by
  unfold decimalDigits
  split
  · simp_all
  · rw [natDigitsAux_foldl 30 n 0 h]
    ring

theorem decimalDigits_length (n k : Nat) (h : n < 10 ^ k) (hk : 0 < k) :
    (decimalDigits n).length ≤ k := by
  unfold decimalDigits
  split
  · simpa using hk
  · exact natDigitsAux_length 30 n k h

theorem padNum_length (width n : Nat) (h : n < 10 ^ width) (hw : 0 < width) :
    (padNum width n).length = width := by
  unfold padNum
  rw [List.length_append, List.length_replicate]
  have := decimalDigits_length n width h hw
  omega

theorem padNum_digits (width n : Nat) : ∀ b ∈ padNum width n, 48 ≤ b ∧ b ≤ 57 := by
  intro b hb
  unfold padNum at hb
  rcases List.mem_append.mp hb with h | h
  · have := List.eq_of_mem_replicate h
    omega
  · exact decimalDigits_digits n b h

theorem foldl_digits_replicate (k acc : Nat) (hacc : acc = 0) :
    (List.replicate k 48).foldl (fun a b => a * 10 + (b - 48)) acc = 0 := by
  induction k with
  | zero => simpa
  | succ k ih =>
    rw [List.replicate_succ, List.foldl_cons]
    exact ih ▸ by simp [hacc]

theorem padNum_foldl (width n : Nat) (h : n < 10 ^ 30) :
    (padNum width n).foldl (fun a b => a * 10 + (b - 48)) 0 = n := by
  unfold padNum
  rw [List.foldl_append]
  rw [foldl_digits_replicate _ 0 rfl]
  exact decimalDigits_foldl n h

/-- `ParseUint` inverts the zero-padded rendering of a 64-bit value. -/
theorem parseUint64_padNum (n : Nat) (h : n < 18446744073709551616) :
    parseUint64 (padNum counterLen n) = some n := by
  unfold parseUint64
  have hne : (padNum counterLen n) ≠ [] := by
    unfold padNum
    exact List.append_ne_nil_of_right_ne_nil _ (decimalDigits_ne_nil n)
  rw [if_neg (by simpa [List.isEmpty_iff] using hne)]
  have hall : (padNum counterLen n).all (fun b => decide (48 ≤ b ∧ b ≤ 57)) = true := by
    rw [List.all_eq_true]
    intro b hb
    simpa using padNum_digits counterLen n b hb
  rw [if_pos hall]
  have h30 : n < 10 ^ 30 := by
    calc n < 18446744073709551616 := h
    _ < 10 ^ 30 := by norm_num
  simp only [padNum_foldl counterLen n h30]
  rw [if_pos h]

theorem parseUint64_lt (s : List Nat) (v : Nat) (h : parseUint64 s = some v) :
    v < 18446744073709551616 := by
  unfold parseUint64 at h
  split at h
  · exact absurd h (by simp)
  · split at h
    · simp only [] at h
      split at h
      · simp at h
        omega
      · exact absurd h (by simp)
    · exact absurd h (by simp)

end TwoFA

namespace TwoFA

/-! ### Helper lemmas: the positioned write -/

theorem writeAt_length (data patch : List Nat) (off : Nat)
    (h : off + patch.length ≤ data.length) :
    (writeAt data off patch).length = data.length := by
  unfold writeAt
  simp only [List.length_append, List.length_take, List.length_drop]
  omega

theorem writeAt_slice (data patch : List Nat) (off : Nat) (h : off ≤ data.length) :
    ((writeAt data off patch).drop off).take patch.length = patch := by
  unfold writeAt
  rw [List.append_assoc]
  have hlen : (data.take off).length = off := by
    rw [List.length_take]
    omega
  have h1 : (data.take off ++ (patch ++ data.drop (off + patch.length))).drop off
      = patch ++ data.drop (off + patch.length) := by
    have := List.drop_left (data.take off) (patch ++ data.drop (off + patch.length))
    rwa [hlen] at this
  rw [h1, List.take_left]

theorem writeAt_frame_left (data patch : List Nat) (off i : Nat) (hi : i < off)
    (hoff : off ≤ data.length) :
    (writeAt data off patch).getD i 0 = data.getD i 0 := by
  unfold writeAt
  have hlen : (data.take off).length = off := by
    rw [List.length_take]; omega
  rw [List.append_assoc, List.getD_append _ _ _ _ (by omega)]
  unfold List.getD
  rw [List.get?_take hi]

theorem writeAt_frame_right (data patch : List Nat) (off i : Nat)
    (hi : off + patch.length ≤ i) (hoff : off + patch.length ≤ data.length) :
    (writeAt data off patch).getD i 0 = data.getD i 0 := by
  unfold writeAt
  have hlen : (data.take off).length = off := by
    rw [List.length_take]; omega
  rw [List.append_assoc, List.getD_append_right _ _ _ _ (by omega),
    List.getD_append_right _ _ _ _ (by omega), hlen]
  unfold List.getD
  rw [List.get?_drop]
  congr 2
  omega

end TwoFA

namespace TwoFA

/-! ### Helper lemmas: the lexicographic comparator and the sort -/

theorem lexLess_asymm : ∀ a b : List Nat, lexLess a b = true → lexLess b a = false := by
  intro a
  induction a with
  | nil =>
    intro b h
    cases b with
    | nil => simp [lexLess] at h
    | cons y ys => simp [lexLess]
  | cons x xs ih =>
    intro b h
    cases b with
    | nil => simp [lexLess] at h
    | cons y ys =>
      simp only [lexLess] at h ⊢
      by_cases h1 : x < y
      · rw [if_neg (by omega), if_pos h1]
      · rw [if_neg h1] at h
        by_cases h2 : y < x
        · rw [if_pos h2] at h
          exact absurd h (by simp)
        · rw [if_neg h2] at h
          rw [if_neg h2, if_neg h1]
          exact ih ys h

theorem lexLess_negtrans : ∀ a b c : List Nat,
    lexLess a b = false → lexLess b c = false → lexLess a c = false := by
  intro a
  induction a with
  | nil =>
    intro b c h1 h2
    cases b with
    | nil => exact h2
    | cons y ys => simp [lexLess] at h1
  | cons x xs ih =>
    intro b c h1 h2
    cases b with
    | nil =>
      cases c with
      | nil => simp [lexLess]
      | cons z zs => simp [lexLess] at h2
    | cons y ys =>
      cases c with
      | nil => simp [lexLess]
      | cons z zs =>
        simp only [lexLess] at h1 h2 ⊢
        by_cases hxy : x < y
        · rw [if_pos hxy] at h1
          exact absurd h1 (by simp)
        · rw [if_neg hxy] at h1
          by_cases hyz : y < z
          · rw [if_pos hyz] at h2
            exact absurd h2 (by simp)
          · rw [if_neg hyz] at h2
            by_cases hxz : x < z
            · omega
            · rw [if_neg hxz]
              by_cases hzx : z < x
              · rw [if_pos hzx]
              · rw [if_neg hzx]
                have hxy' : ¬ y < x := by omega
                have hyz' : ¬ z < y := by omega
                rw [if_neg hxy'] at h1
                rw [if_neg hyz'] at h2
                exact ih ys zs h1 h2

theorem insertGo_perm {α : Type} (less : α → α → Bool) (a : α) :
    ∀ l : List α, (insertGo less a l).Perm (a :: l) := by
  intro l
  induction l with
  | nil => simp [insertGo]
  | cons b t ih =>
    simp only [insertGo]
    split
    · exact List.Perm.refl _
    · exact ((ih.cons b).trans (List.Perm.swap a b t))

theorem sortGo_perm {α : Type} (less : α → α → Bool) (l : List α) :
    (sortGo less l).Perm l := by
  suffices h : ∀ (l acc : List α),
      (l.foldl (fun acc a => insertGo less a acc) acc).Perm (acc ++ l) by
    simpa using h l []
  intro l
  induction l with
  | nil => intro acc; simp
  | cons a t ih =>
    intro acc
    simp only [List.foldl_cons]
    refine (ih (insertGo less a acc)).trans ?_
    refine (((insertGo_perm less a acc).append_right t).trans ?_)
    simpa using List.perm_middle.symm

theorem mem_insertGo {α : Type} (less : α → α → Bool) (a x : α) (l : List α) :
    x ∈ insertGo less a l ↔ x = a ∨ x ∈ l := by
  rw [(insertGo_perm less a l).mem_iff]
  simp

/-- Insertion keeps the list pairwise-sorted for the reflexive companion
`R x y := less y x = false` of an asymmetric, negatively transitive
comparator. -/
theorem insertGo_pairwise {α : Type} (less : α → α → Bool)
    (hasym : ∀ x y, less x y = true → less y x = false)
    (hneg : ∀ x y z, less x y = false → less y z = false → less x z = false)
    (a : α) : ∀ l : List α, l.Pairwise (fun x y => less y x = false) →
    (insertGo less a l).Pairwise (fun x y => less y x = false) := by
  intro l
  induction l with
  | nil => intro _; simp [insertGo]
  | cons b t ih =>
    intro hp
    rcases List.pairwise_cons.mp hp with ⟨hb, ht⟩
    simp only [insertGo]
    split
    · rename_i hab
      refine List.pairwise_cons.mpr ⟨?_, hp⟩
      intro y hy
      rcases List.mem_cons.mp hy with rfl | hyt
      · exact hasym a y hab
      · exact hneg y b a (hb y hyt) (hasym a b hab)
    · rename_i hab
      refine List.pairwise_cons.mpr ⟨?_, ih ht⟩
      intro y hy
      rcases (mem_insertGo less a y t).mp hy with rfl | hyt
      · simpa using hab
      · exact hb y hyt

theorem sortGo_pairwise {α : Type} (less : α → α → Bool)
    (hasym : ∀ x y, less x y = true → less y x = false)
    (hneg : ∀ x y z, less x y = false → less y z = false → less x z = false)
    (l : List α) : (sortGo less l).Pairwise (fun x y => less y x = false) := by
  suffices h : ∀ (l acc : List α), acc.Pairwise (fun x y => less y x = false) →
      (l.foldl (fun acc a => insertGo less a acc) acc).Pairwise
        (fun x y => less y x = false) by
    exact h l [] (by simp)
  intro l
  induction l with
  | nil => intro acc h; simpa using h
  | cons a t ih =>
    intro acc h
    simp only [List.foldl_cons]
    exact ih _ (insertGo_pairwise less hasym hneg a acc h)

theorem lineLess_asymm (x y : List Nat) (h : lineLess x y = true) : lineLess y x = false :=
  lexLess_asymm _ _ h

theorem lineLess_negtrans (x y z : List Nat) (h1 : lineLess x y = false)
    (h2 : lineLess y z = false) : lineLess x z = false :=
  lexLess_negtrans _ _ _ h1 h2

end TwoFA

namespace TwoFA

/-! ### Claim C3 and claim C4: the code generators -/

/-- C3.  `hotp(secret, counter, digitCount)` computes HMAC-SHA1 over the
8-byte big-endian counter keyed by the secret, truncates dynamically at
the offset given by the low 4 bits of the last byte, masks the sign bit
and reduces modulo `10 ^ min digitCount 8` (the first conjunct states
the clamping of the digit count at 8); being a pure function it is
deterministic, and it matches all ten RFC 4226 reference vectors for the
reference secret `"12345678901234567890"` at 6 digits. -/
theorem hotp_rfc4226 :
    (∀ key c d, hotp key c d = hotp key c (min d 8))
    ∧ hotp (bs "12345678901234567890") 0 6 = 755224
    ∧ hotp (bs "12345678901234567890") 1 6 = 287082
    ∧ hotp (bs "12345678901234567890") 2 6 = 359152
    ∧ hotp (bs "12345678901234567890") 3 6 = 969429
    ∧ hotp (bs "12345678901234567890") 4 6 = 338314
    ∧ hotp (bs "12345678901234567890") 5 6 = 254676
    ∧ hotp (bs "12345678901234567890") 6 6 = 287922
    ∧ hotp (bs "12345678901234567890") 7 6 = 162583
    ∧ hotp (bs "12345678901234567890") 8 6 = 399871
    ∧ hotp (bs "12345678901234567890") 9 6 = 520489 := by
  refine ⟨?_, ?_, ?_, ?_, ?_, ?_, ?_, ?_, ?_, ?_, ?_⟩
  · intro key c d
    have hmin : min (min d 8) 8 = min d 8 := by omega
    simp only [hotp, hmin]
  all_goals decide

/-- C4.  `totp(secret, t, digitCount)` equals
`hotp(secret, unixNanoseconds / 30e9, digitCount)` — a fixed 30-second
step — and at the RFC 6238 reference secret and timestamps 59,
1111111109 and 1111111111 seconds it produces the published reference
codes truncated to 6 digits (287082, 081804, 050471). -/
theorem totp_rfc6238 :
    (∀ key tn d, totp key tn d = hotp key (tn / 30000000000) d)
    ∧ totp (bs "12345678901234567890") 59000000000 6 = 287082
    ∧ totp (bs "12345678901234567890") 1111111109000000000 6 = 81804
    ∧ totp (bs "12345678901234567890") 1111111111000000000 6 = 50471 := by
  refine ⟨fun _ _ _ => rfl, ?_, ?_, ?_⟩
  all_goals decide

end TwoFA

namespace TwoFA

/-! ### Claim C1 and claim C2: the counter advance -/

instance instDecEqExcept {ε α : Type} [DecidableEq ε] [DecidableEq α] :
    DecidableEq (Except ε α) := fun a b =>
  match a, b with
  | .ok x, .ok y =>
    if h : x = y then isTrue (by rw [h]) else isFalse (fun c => h (Except.ok.inj c))
  | .error x, .error y =>
    if h : x = y then isTrue (by rw [h]) else isFalse (fun c => h (Except.error.inj c))
  | .ok _, .error _ => isFalse (fun c => Except.noConfusion c)
  | .error _, .ok _ => isFalse (fun c => Except.noConfusion c)

theorem counterLen_pos : 0 < counterLen := by norm_num [counterLen]

theorem lt_pow_counterLen (n : Nat) (h : n < 18446744073709551616) : n < 10 ^ counterLen := by
  have h10 : (10 : Nat) ^ counterLen = 100000000000000000000 := by norm_num [counterLen]
  omega

theorem codeOp_parse_none (data : List Nat) (k : Key) (tn : Nat) (w : Bool)
    (hoff : k.offset ≠ 0)
    (hparse : parseUint64 ((data.drop k.offset).take counterLen) = none) :
    codeOp data k tn w = .error .corruptCounter := by
  unfold codeOp
  rw [if_pos hoff, hparse]

theorem codeOp_parse_some_ok (data : List Nat) (k : Key) (tn n0 : Nat)
    (hoff : k.offset ≠ 0)
    (hparse : parseUint64 ((data.drop k.offset).take counterLen) = some n0) :
    codeOp data k tn true
      = .ok (padNum k.digits (hotp k.raw ((n0 + 1) % 18446744073709551616) k.digits),
          writeAt data k.offset (padNum counterLen ((n0 + 1) % 18446744073709551616))) := by
  unfold codeOp
  rw [if_pos hoff, hparse]
  rfl

theorem codeOp_parse_some_fail (data : List Nat) (k : Key) (tn n0 : Nat)
    (hoff : k.offset ≠ 0)
    (hparse : parseUint64 ((data.drop k.offset).take counterLen) = some n0) :
    codeOp data k tn false = .error .ioError := by
  unfold codeOp
  rw [if_pos hoff, hparse]
  rfl

/-- C1, counterexample.  On the stored counter value `2^64 - 2`
(a well-formed 20-digit field accepted by `readKeychain`) the first
code emission uses and commits counter `2^64 - 1`, and the second wraps
the 64-bit increment around to use and commit `0`: the two counter
values are distinct but **not** strictly increasing, refuting the
claimed monotonicity.  Both on-disk fields remain 20 digits. -/
theorem advanceCounter_wrap_cex :
    (readKeychain (bs "h 6 MZXW6YTB 18446744073709551614\n")).keys
      = [(bs "h", ⟨bs "fooba", 6, 13⟩)]
    ∧ codeOp (bs "h 6 MZXW6YTB 18446744073709551614\n") ⟨bs "fooba", 6, 13⟩ 0 true
      = .ok (padNum 6 (hotp (bs "fooba") 18446744073709551615 6),
          bs "h 6 MZXW6YTB 18446744073709551615\n")
    ∧ codeOp (bs "h 6 MZXW6YTB 18446744073709551615\n") ⟨bs "fooba", 6, 13⟩ 0 true
      = .ok (padNum 6 (hotp (bs "fooba") 0 6),
          bs "h 6 MZXW6YTB 00000000000000000000\n")
    ∧ ¬ (18446744073709551615 : Nat) < 0 := by
  refine ⟨by decide, by decide, by decide, by decide⟩

/-- C1, amended.  For an HOTP record (non-zero counter byte offset
within the retained file bytes), emitting a code parses the 20-digit
field at that offset as an unsigned 64-bit integer, increments it
modulo `2^64`, commits the new 20-digit zero-padded value back at the
identical byte offset by a positioned write that leaves every byte
outside the field and the file length unchanged, and uses the new value
as the HOTP counter; two applications in sequence use the counters
`n0+1` and `n0+2`, which are distinct, and are strictly increasing
provided the stored counter does not wrap (`n0 + 2 < 2^64`); the
on-disk field is always exactly 20 digits. -/
theorem advanceCounter_amended (data : List Nat) (k : Key) (tn n0 : Nat)
    (hoff : k.offset ≠ 0)
    (hbound : k.offset + counterLen ≤ data.length)
    (hparse : parseUint64 ((data.drop k.offset).take counterLen) = some n0)
    (hwrap : n0 + 2 < 18446744073709551616) :
    codeOp data k tn true
      = .ok (padNum k.digits (hotp k.raw (n0 + 1) k.digits),
          writeAt data k.offset (padNum counterLen (n0 + 1)))
    ∧ (((writeAt data k.offset (padNum counterLen (n0 + 1))).drop k.offset).take counterLen)
        = padNum counterLen (n0 + 1)
    ∧ (padNum counterLen (n0 + 1)).length = counterLen
    ∧ codeOp (writeAt data k.offset (padNum counterLen (n0 + 1))) k tn true
      = .ok (padNum k.digits (hotp k.raw (n0 + 2) k.digits),
          writeAt (writeAt data k.offset (padNum counterLen (n0 + 1))) k.offset
            (padNum counterLen (n0 + 2)))
    ∧ n0 + 1 ≠ n0 + 2
    ∧ n0 + 1 < n0 + 2
    ∧ (writeAt data k.offset (padNum counterLen (n0 + 1))).length = data.length
    ∧ (∀ i, i < k.offset →
        (writeAt data k.offset (padNum counterLen (n0 + 1))).getD i 0 = data.getD i 0)
    ∧ (∀ i, k.offset + counterLen ≤ i →
        (writeAt data k.offset (padNum counterLen (n0 + 1))).getD i 0 = data.getD i 0) := by
  have hM : (n0 + 1) % 18446744073709551616 = n0 + 1 := Nat.mod_eq_of_lt (by omega)
  have hlen1 : (padNum counterLen (n0 + 1)).length = counterLen :=
    padNum_length counterLen (n0 + 1) (lt_pow_counterLen _ (by omega)) counterLen_pos
  have hslice : (((writeAt data k.offset (padNum counterLen (n0 + 1))).drop k.offset).take
      counterLen) = padNum counterLen (n0 + 1) := by
    have := writeAt_slice data (padNum counterLen (n0 + 1)) k.offset (by omega)
    rwa [hlen1] at this
  have hparse2 : parseUint64 (((writeAt data k.offset (padNum counterLen (n0 + 1))).drop
      k.offset).take counterLen) = some (n0 + 1) := by
    rw [hslice]
    exact parseUint64_padNum (n0 + 1) (by omega)
  have hM2 : (n0 + 1 + 1) % 18446744073709551616 = n0 + 2 := Nat.mod_eq_of_lt (by omega)
  refine ⟨?_, hslice, hlen1, ?_, by omega, by omega, ?_, ?_, ?_⟩
  · have := codeOp_parse_some_ok data k tn n0 hoff hparse
    rwa [hM] at this
  · have := codeOp_parse_some_ok (writeAt data k.offset (padNum counterLen (n0 + 1)))
      k tn (n0 + 1) hoff hparse2
    rwa [hM2] at this
  · exact writeAt_length data _ k.offset (by rw [hlen1]; omega)
  · intro i hi
    exact writeAt_frame_left data _ k.offset i hi (by omega)
  · intro i hi
    refine writeAt_frame_right data _ k.offset i ?_ ?_ <;> rw [hlen1] <;> omega

/-- C1, amended, witness at a concrete HOTP record with stored
counter 42. -/
theorem advanceCounter_amended_witness :
    ((⟨bs "fooba", 6, 13⟩ : Key).offset ≠ 0
      ∧ (⟨bs "fooba", 6, 13⟩ : Key).offset + counterLen
          ≤ (bs "h 6 MZXW6YTB 00000000000000000042\n").length
      ∧ parseUint64 (((bs "h 6 MZXW6YTB 00000000000000000042\n").drop
          (⟨bs "fooba", 6, 13⟩ : Key).offset).take counterLen) = some 42
      ∧ 42 + 2 < 18446744073709551616)
    ∧ ((bs "h 6 MZXW6YTB 00000000000000000042\n").take 13
        ++ padNum counterLen 43 ++ [10]).length
        = (bs "h 6 MZXW6YTB 00000000000000000042\n").length := by
  refine ⟨⟨by decide, by decide, by decide, by decide⟩, ?_⟩
  have h := advanceCounter_amended (bs "h 6 MZXW6YTB 00000000000000000042\n")
    ⟨bs "fooba", 6, 13⟩ 0 42 (by decide) (by decide) (by decide) (by decide)
  have hlen := h.2.2.2.2.2.2.1
  have : writeAt (bs "h 6 MZXW6YTB 00000000000000000042\n") 13 (padNum counterLen 43)
      = (bs "h 6 MZXW6YTB 00000000000000000042\n").take 13
        ++ padNum counterLen 43 ++ [10] := by decide
  rwa [this] at hlen

/-- C2.  Emitting a code for an HOTP key never yields a code without
first committing the advanced counter: an unparsable stored field fails
with `CorruptCounter` and no code; a failed open/write of the keychain
file aborts with an I/O error and no code; and a successful emission
returns exactly the code derived from the committed counter value
`(n0+1) mod 2^64`, the rewritten file parses back to that committed
value, and the counter a subsequent emission would use differs from it
(no reuse). -/
theorem code_requires_commit (data : List Nat) (k : Key) (tn : Nat)
    (hoff : k.offset ≠ 0)
    (hbound : k.offset + counterLen ≤ data.length) :
    (parseUint64 ((data.drop k.offset).take counterLen) = none →
      ∀ w, codeOp data k tn w = .error .corruptCounter)
    ∧ (∀ n0, parseUint64 ((data.drop k.offset).take counterLen) = some n0 →
        codeOp data k tn false = .error .ioError)
    ∧ (∀ n0, parseUint64 ((data.drop k.offset).take counterLen) = some n0 →
        codeOp data k tn true
          = .ok (padNum k.digits
              (hotp k.raw ((n0 + 1) % 18446744073709551616) k.digits),
            writeAt data k.offset (padNum counterLen ((n0 + 1) % 18446744073709551616)))
        ∧ parseUint64 (((writeAt data k.offset
            (padNum counterLen ((n0 + 1) % 18446744073709551616))).drop k.offset).take
              counterLen)
            = some ((n0 + 1) % 18446744073709551616)
        ∧ ((n0 + 1) % 18446744073709551616 + 1) % 18446744073709551616
            ≠ (n0 + 1) % 18446744073709551616) := by
  refine ⟨?_, ?_, ?_⟩
  · intro hparse w
    exact codeOp_parse_none data k tn w hoff hparse
  · intro n0 hparse
    exact codeOp_parse_some_fail data k tn n0 hoff hparse
  · intro n0 hparse
    have hn0 : n0 < 18446744073709551616 := parseUint64_lt _ _ hparse
    have hlt : (n0 + 1) % 18446744073709551616 < 18446744073709551616 :=
      Nat.mod_lt _ (by norm_num)
    have hlen1 : (padNum counterLen ((n0 + 1) % 18446744073709551616)).length = counterLen :=
      padNum_length counterLen _ (lt_pow_counterLen _ hlt) counterLen_pos
    refine ⟨codeOp_parse_some_ok data k tn n0 hoff hparse, ?_, by omega⟩
    have hslice := writeAt_slice data
      (padNum counterLen ((n0 + 1) % 18446744073709551616)) k.offset (by omega)
    rw [hlen1] at hslice
    rw [hslice]
    exact parseUint64_padNum _ hlt

/-- C2, witness at a concrete HOTP record with stored counter 42. -/
theorem code_requires_commit_witness :
    ((⟨bs "fooba", 6, 13⟩ : Key).offset ≠ 0
      ∧ (⟨bs "fooba", 6, 13⟩ : Key).offset + counterLen
          ≤ (bs "h 6 MZXW6YTB 00000000000000000042\n").length)
    ∧ codeOp (bs "h 6 MZXW6YTB 00000000000000000042\n") ⟨bs "fooba", 6, 13⟩ 0 false
        = .error .ioError := by
  refine ⟨⟨by decide, by decide⟩, ?_⟩
  exact (code_requires_commit (bs "h 6 MZXW6YTB 00000000000000000042\n")
    ⟨bs "fooba", 6, 13⟩ 0 (by decide) (by decide)).2.1 42 (by decide)

end TwoFA

namespace TwoFA

/-! ### Claim C5 and claim C10: the sorted whole-file rewrite -/

/-- The name field of a stored line in the sense of the record format:
all fields left of the digit-count marker, rejoined. -/
def nameOfLine (line : List Nat) : List Nat :=
  match digitPos (splitByte 32 line) with
  | some i => joinSp ((splitByte 32 line).take i)
  | none => []

/-- C5, counterexample.  `rewriteSorted` sorts by the lower-cased
*first* space-separated token of each line, not by the full name field.
(a) Adding a record named `"my bank"` to a file holding one named
`"my car"` ties on the first token `"my"`, so Go's insertion sort (two
elements, `less` false both ways, no swap) keeps the existing line
first: the rewritten file reads `"my car"` before `"my bank"`, not
sorted case-insensitively by name.  (b) With an existing record named
`"go z"` and a new one named `"go"* TAB *"x"`, the comparator
*strictly* orders the `"go z"` line first (`"go" < "go\x09x"` on first
tokens), so every sort consistent with it produces that order; but the
full name fields compare the other way (`"go\x09x" < "go z"`), so no
tie-breaking choice can rescue the claim. -/
theorem rewriteSorted_first_token_cex :
    rewriteSorted (bs "my car 6 MZXW6YTB\n") [bs "my bank 6 MZXW6YTB"]
      = [bs "my car 6 MZXW6YTB", bs "my bank 6 MZXW6YTB"]
    ∧ nameOfLine (bs "my car 6 MZXW6YTB") = bs "my car"
    ∧ nameOfLine (bs "my bank 6 MZXW6YTB") = bs "my bank"
    ∧ lexLess (lowerBytes (bs "my bank")) (lowerBytes (bs "my car")) = true
    ∧ rewriteSorted (bs "go z 6 MZXW6YTB\n") [bs "go\tx 6 MZXW6YTB"]
      = [bs "go z 6 MZXW6YTB", bs "go\tx 6 MZXW6YTB"]
    ∧ lineLess (bs "go z 6 MZXW6YTB") (bs "go\tx 6 MZXW6YTB") = true
    ∧ lineLess (bs "go\tx 6 MZXW6YTB") (bs "go z 6 MZXW6YTB") = false
    ∧ nameOfLine (bs "go z 6 MZXW6YTB") = bs "go z"
    ∧ nameOfLine (bs "go\tx 6 MZXW6YTB") = bs "go\tx"
    ∧ lexLess (lowerBytes (bs "go\tx")) (lowerBytes (bs "go z")) = true := by
  refine ⟨by decide, by decide, by decide, by decide, by decide,
    by decide, by decide, by decide, by decide, by decide⟩

/-- C5, amended.  `add` merges the new record lines with all pre-existing
non-empty raw lines of the file and rewrites the whole file with the
combined set sorted case-insensitively by the *first space-separated
token* of each line (for names without embedded spaces this is the name
field); lines whose first tokens tie may appear in either relative
order, so for names with embedded spaces the file need not be sorted by
the full name field. -/
theorem rewriteSorted_amended (data : List Nat) (newEntries : List (List Nat)) :
    (rewriteSorted data newEntries).Perm (existingLines data ++ newEntries)
    ∧ (rewriteSorted data newEntries).Pairwise (fun a b => lineLess b a = false) :=
  ⟨sortGo_perm _ _, sortGo_pairwise lineLess lineLess_asymm lineLess_negtrans _⟩

/-- C10.  Adding a key under a name that already exists neither
replaces, deduplicates nor rejects: the rewritten file carries both the
pre-existing line and the new line for the same name (here `"github"`
with two different secrets), and a subsequent load maps that name to
exactly one record — the map retains a single entry for `"github"`,
the one parsed from the later of the two lines. -/
theorem add_duplicate_name :
    addLine (bs "github") (bs "MZXW6YQ=") 6 false = bs "github 6 MZXW6YQ="
    ∧ rewriteSorted (bs "github 6 MZXW6YTB\n") [bs "github 6 MZXW6YQ="]
      = [bs "github 6 MZXW6YTB", bs "github 6 MZXW6YQ="]
    ∧ addFile (bs "github 6 MZXW6YTB\n") (bs "github 6 MZXW6YQ=")
      = bs "github 6 MZXW6YTB\ngithub 6 MZXW6YQ=\n"
    ∧ (readKeychain (bs "github 6 MZXW6YTB\ngithub 6 MZXW6YQ=\n")).keys
      = [(bs "github", ⟨bs "foob", 6, 0⟩)]
    ∧ decodeKey (bs "MZXW6YTB") = some (bs "fooba")
    ∧ decodeKey (bs "MZXW6YQ=") = some (bs "foob") := by
  refine ⟨by decide, by decide, by decide, by decide, by decide, by decide⟩

end TwoFA

namespace TwoFA

/-! ### Claim C6: the resolver -/

theorem perm_two {α : Type} (a b : α) (x : List α) (h : x.Perm [a, b]) :
    x = [a, b] ∨ x = [b, a] := by
  have hlen : x.length = 2 := h.length_eq
  match x, hlen with
  | [p, q], _ =>
    have hp : p ∈ [a, b] := h.mem_iff.mp (by simp)
    rcases (by simpa using hp : p = a ∨ p = b) with rfl | rfl
    · have hq : q ∈ [b] := (h.cons_inv).mem_iff.mp (by simp)
      left
      simp_all
    · have hq : q ∈ [a] := ((h.trans (List.Perm.swap p a [])).cons_inv).mem_iff.mp (by simp)
      right
      simp_all

theorem perm_three {α : Type} (a b c : α) (x : List α) (h : x.Perm [a, b, c]) :
    x = [a, b, c] ∨ x = [a, c, b] ∨ x = [b, a, c] ∨ x = [b, c, a]
      ∨ x = [c, a, b] ∨ x = [c, b, a] := by
  have hlen : x.length = 3 := h.length_eq
  match x, hlen with
  | [p, q, r], _ =>
    have hp : p ∈ [a, b, c] := h.mem_iff.mp (by simp)
    rcases (by simpa using hp : p = a ∨ p = b ∨ p = c) with rfl | rfl | rfl
    · rcases perm_two b c [q, r] h.cons_inv with h2 | h2
      · left; simp_all
      · right; left; simp_all
    · have h' : [q, r].Perm [a, c] :=
        (h.trans (List.Perm.swap p a [c])).cons_inv
      rcases perm_two a c [q, r] h' with h2 | h2
      · right; right; left; simp_all
      · right; right; right; left; simp_all
    · have hacp : ([a, b] ++ p :: []).Perm (p :: [a, b]) := List.perm_middle
      have h' : [q, r].Perm [a, b] := (h.trans hacp).cons_inv
      rcases perm_two a b [q, r] h' with h2 | h2
      · right; right; right; right; left; simp_all
      · right; right; right; right; right; simp_all

/-- C6, counterexample.  The code returns the fuzzy candidates in the
order the Go map happens to enumerate the stored names
(`fuzzy.RankFind` preserves target order and `fuzzyMatch` never sorts
its result), so the order is not a function of the stored-name set at
all: two enumerations of the same three stored names yield the two
opposite orders for query `"go"`.  No fixed "ranked order with ties
broken lexicographically" can equal both. -/
theorem fuzzy_order_cex :
    fuzzyMatch [bs "github", bs "google", bs "gojek"] (bs "go")
      = [bs "google", bs "gojek"]
    ∧ fuzzyMatch [bs "gojek", bs "google", bs "github"] (bs "go")
      = [bs "gojek", bs "google"]
    ∧ ([bs "gojek", bs "google", bs "github"] : List (List Nat)).Perm
        [bs "github", bs "google", bs "gojek"]
    ∧ ([bs "google", bs "gojek"] : List (List Nat)) ≠ [bs "gojek", bs "google"] := by
  refine ⟨by decide, by decide, by decide, by decide⟩

/-- C6, amended.  A query equal to a stored name verbatim
(case-sensitive) short-circuits all fuzzy logic and selects exactly
that key.  Otherwise the query is compared case-insensitively against
the stored names by a subsequence test and the matching candidates are
returned *in the (unspecified) order the stored names are enumerated*,
not in ranked order; when that yields nothing, case-insensitive
substring containment is used with the matches sorted
lexicographically; zero results overall fail with `NoSuchKey`.  With
stored names `{github, google, gojek}` in any enumeration order, query
`"go"` yields the set `{google, gojek}` (in enumeration order), query
`"gthb"` yields exactly `github`, and query `"nomatch"` fails with
`NoSuchKey`. -/
theorem resolver_amended :
    (∀ (names : List (List Nat)) query, query ∈ names →
      resolveName names query = .exact query)
    ∧ (∀ names : List (List Nat),
        names.Perm [bs "github", bs "google", bs "gojek"] →
        resolveName names (bs "go") = .multiple [bs "google", bs "gojek"]
          ∨ resolveName names (bs "go") = .multiple [bs "gojek", bs "google"])
    ∧ (∀ names : List (List Nat),
        names.Perm [bs "github", bs "google", bs "gojek"] →
        resolveName names (bs "gthb") = .single (bs "github"))
    ∧ (∀ names : List (List Nat),
        names.Perm [bs "github", bs "google", bs "gojek"] →
        resolveName names (bs "nomatch") = .noSuchKey) := by
  refine ⟨?_, ?_, ?_, ?_⟩
  · intro names query h
    unfold resolveName
    rw [if_pos (List.elem_eq_true_of_mem h)]
  · intro names h
    rcases perm_three _ _ _ names h with rfl | rfl | rfl | rfl | rfl | rfl <;>
      first
        | exact Or.inl (by decide)
        | exact Or.inr (by decide)
  · intro names h
    rcases perm_three _ _ _ names h with rfl | rfl | rfl | rfl | rfl | rfl <;> decide
  · intro names h
    rcases perm_three _ _ _ names h with rfl | rfl | rfl | rfl | rfl | rfl <;> decide

/-- C6, amended, witness: the exact-match short-circuit and the three
reference queries at one concrete enumeration order. -/
theorem resolver_amended_witness :
    (bs "github" ∈ [bs "github", bs "google", bs "gojek"]
      ∧ ([bs "github", bs "google", bs "gojek"] : List (List Nat)).Perm
          [bs "github", bs "google", bs "gojek"])
    ∧ resolveName [bs "github", bs "google", bs "gojek"] (bs "github")
        = .exact (bs "github")
    ∧ resolveName [bs "github", bs "google", bs "gojek"] (bs "gthb")
        = .single (bs "github")
    ∧ resolveName [bs "github", bs "google", bs "gojek"] (bs "nomatch") = .noSuchKey := by
  refine ⟨⟨by decide, List.Perm.refl _⟩, ?_, ?_, ?_⟩
  · exact resolver_amended.1 [bs "github", bs "google", bs "gojek"] (bs "github") (by decide)
  · exact resolver_amended.2.2.1 [bs "github", bs "google", bs "gojek"] (List.Perm.refl _)
  · exact resolver_amended.2.2.2 [bs "github", bs "google", bs "gojek"] (List.Perm.refl _)

end TwoFA









namespace TwoFA

/-! ### Claim C7: name parsing with embedded spaces -/

/-- Spec-side characterization of the digit-count marker, following the
spec's words: a field that is a single ASCII digit in `{'6','7','8'}`
immediately followed by a non-empty field. -/
def markerSpec (f : List (List Nat)) (i : Nat) : Prop :=
  (f.getD i [] = [54] ∨ f.getD i [] = [55] ∨ f.getD i [] = [56])
  ∧ i + 1 < f.length ∧ f.getD (i + 1) [] ≠ []

theorem isMarkerAt_iff (f : List (List Nat)) (i : Nat) :
    isMarkerAt f i = true ↔ markerSpec f i := by
  unfold isMarkerAt markerSpec
  cases hg : f.getD i [] with
  | nil => simp
  | cons d t =>
    cases t with
    | nil =>
      simp only [Bool.and_eq_true, decide_eq_true_eq, Bool.not_eq_true',
        List.isEmpty_eq_false, List.cons.injEq, and_true, List.isEmpty_iff]
      constructor
      · rintro ⟨⟨h1, h2⟩, h3⟩
        exact ⟨by omega, h2, h3⟩
      · rintro ⟨h1, h2, h3⟩
        exact ⟨⟨by omega, h2⟩, h3⟩
    | cons e t2 => simp

theorem isMarkerAt_oob (f : List (List Nat)) (j : Nat) (h : f.length ≤ j + 1) :
    isMarkerAt f j = false := by
  unfold isMarkerAt
  have hd : decide (j + 1 < f.length) = false := decide_eq_false (by omega)
  rw [hd]
  simp

theorem scanDown_some (f : List (List Nat)) : ∀ n i, scanDown f n = some i →
    isMarkerAt f i = true ∧ 1 ≤ i ∧ i ≤ n
      ∧ ∀ j, i < j → j ≤ n → isMarkerAt f j = false := by
  intro n
  induction n with
  | zero => intro i h; simp [scanDown] at h
  | succ n ih =>
    intro i h
    simp only [scanDown] at h
    split at h
    · rename_i hm
      have hi : i = n + 1 := by
        have := Option.some.inj h
        omega
      subst hi
      refine ⟨hm, by omega, by omega, ?_⟩
      intro j h1 h2
      omega
    · rename_i hm
      obtain ⟨m1, m2, m3, m4⟩ := ih i h
      refine ⟨m1, m2, by omega, ?_⟩
      intro j h1 h2
      rcases Nat.lt_or_ge j (n + 1) with hj | hj
      · exact m4 j h1 (by omega)
      · have : j = n + 1 := by omega
        subst this
        exact Bool.not_eq_true _ ▸ (by simpa using hm)

/-- C7.  When `readKeychain` accepts a stored line as a record, the
digit-count position it used is exactly the right-most field that is a
single ASCII digit `'6'`/`'7'`/`'8'` immediately followed by a
non-empty field (and not the very first field); the record's name is
the rejoining of every field left of that position, its digit count is
the value of that digit (6, 7 or 8), and its secret is the base32
decoding of the following field. -/
theorem load_name_embedded_spaces (line : List Nat) (cursorEnd : Nat)
    (name : List Nat) (k : Key)
    (h : analyzeLine line cursorEnd = .record name k) :
    ∃ i, 1 ≤ i
      ∧ markerSpec (splitByte 32 (trimOneNL line)) i
      ∧ (∀ j, i < j → ¬ markerSpec (splitByte 32 (trimOneNL line)) j)
      ∧ name = joinSp ((splitByte 32 (trimOneNL line)).take i)
      ∧ (∃ d, (splitByte 32 (trimOneNL line)).getD i [] = [d]
          ∧ k.digits = d - 48 ∧ 6 ≤ k.digits ∧ k.digits ≤ 8)
      ∧ decodeKey ((splitByte 32 (trimOneNL line)).getD (i + 1) []) = some k.raw := by
  unfold analyzeLine at h
  cases hcl : classifyLine line with
  | blank => rw [hcl] at h; exact absurd h (by simp)
  | malformed => rw [hcl] at h; exact absurd h (by simp)
  | record nm raw digits hctr =>
    rw [hcl] at h
    simp only [LineResult.record.injEq] at h
    obtain ⟨rfl, hk⟩ := h
    unfold classifyLine at hcl
    simp only [] at hcl
    split at hcl
    · exact absurd hcl (by simp)
    · split at hcl
      · exact absurd hcl (by simp)
      · rename_i i hdp
        split at hcl
        · rename_i hrange
          split at hcl
          · exact absurd hcl (by simp)
          · rename_i raw' hdec
            obtain ⟨hm, h1, _hle, hrest⟩ := scanDown_some _ _ _ hdp
            have hspec := (isMarkerAt_iff _ i).mp hm
            refine ⟨i, h1, hspec, ?_, ?_, ?_, ?_⟩
            · intro j hij hspecj
              have hmj := (isMarkerAt_iff _ j).mpr hspecj
              rcases Nat.lt_or_ge j ((splitByte 32 (trimOneNL line)).length - 1 + 1)
                  with hj | hj
              · rw [hrest j hij (by omega)] at hmj
                exact absurd hmj (by simp)
              · rw [isMarkerAt_oob _ j (by omega)] at hmj
                exact absurd hmj (by simp)
            · split at hcl
              · simp only [LineCore.record.injEq] at hcl
                obtain ⟨hnm, _, _, _⟩ := hcl
                exact hnm.symm
              · split at hcl
                · split at hcl
                  · simp only [LineCore.record.injEq] at hcl
                    obtain ⟨hnm, _, _, _⟩ := hcl
                    exact hnm.symm
                  · exact absurd hcl (by simp)
                · exact absurd hcl (by simp)
            · obtain ⟨hd6, _, _⟩ := hspec
              have hdig : digits = ((splitByte 32 (trimOneNL line)).getD i []).getD 0 0 - 48
                  ∧ k.digits = digits := by
                constructor
                · split at hcl
                  · simp only [LineCore.record.injEq] at hcl
                    obtain ⟨_, _, hd, _⟩ := hcl
                    exact hd.symm
                  · split at hcl
                    · split at hcl
                      · simp only [LineCore.record.injEq] at hcl
                        obtain ⟨_, _, hd, _⟩ := hcl
                        exact hd.symm
                      · exact absurd hcl (by simp)
                    · exact absurd hcl (by simp)
                · rw [← hk]
              rcases hd6 with hd | hd | hd <;>
                exact ⟨_, hd, by rw [hdig.2, hdig.1, hd]; simp,
                  by rw [hdig.2, hdig.1, hd]; simp,
                  by rw [hdig.2, hdig.1, hd]; simp⟩
            · have hraw : raw' = raw ∧ k.raw = raw := by
                constructor
                · split at hcl
                  · simp only [LineCore.record.injEq] at hcl
                    obtain ⟨_, hr, _, _⟩ := hcl
                    exact hr
                  · split at hcl
                    · split at hcl
                      · simp only [LineCore.record.injEq] at hcl
                        obtain ⟨_, hr, _, _⟩ := hcl
                        exact hr
                      · exact absurd hcl (by simp)
                    · exact absurd hcl (by simp)
                · rw [← hk]
              rw [hraw.2, ← hraw.1]
              exact hdec
        · exact absurd hcl (by simp)

/-- C7, witness: a record line whose name carries an embedded space. -/
theorem load_name_embedded_spaces_witness :
    analyzeLine (bs "my bank 6 MZXW6YTB") 0 = .record (bs "my bank") ⟨bs "fooba", 6, 0⟩
    ∧ ∃ i, 1 ≤ i
      ∧ markerSpec (splitByte 32 (trimOneNL (bs "my bank 6 MZXW6YTB"))) i
      ∧ (∀ j, i < j → ¬ markerSpec (splitByte 32 (trimOneNL (bs "my bank 6 MZXW6YTB"))) j)
      ∧ bs "my bank" = joinSp ((splitByte 32 (trimOneNL (bs "my bank 6 MZXW6YTB"))).take i)
      ∧ (∃ d, (splitByte 32 (trimOneNL (bs "my bank 6 MZXW6YTB"))).getD i [] = [d]
          ∧ (⟨bs "fooba", 6, 0⟩ : Key).digits = d - 48
          ∧ 6 ≤ (⟨bs "fooba", 6, 0⟩ : Key).digits ∧ (⟨bs "fooba", 6, 0⟩ : Key).digits ≤ 8)
      ∧ decodeKey ((splitByte 32 (trimOneNL (bs "my bank 6 MZXW6YTB"))).getD (i + 1) [])
          = some (⟨bs "fooba", 6, 0⟩ : Key).raw :=
  ⟨by decide, load_name_embedded_spaces (bs "my bank 6 MZXW6YTB") 0 _ _ (by decide)⟩

end TwoFA

namespace TwoFA

/-! ### Claim C8: malformed lines are warned about and skipped -/

/-- 1-based line numbers of the lines classified malformed, starting
the numbering at `lineno`. -/
def malformedLineNos : List (List Nat) → Nat → List Nat
  | [], _ => []
  | line :: rest, lineno =>
    if classifyLine line = .malformed then lineno :: malformedLineNos rest (lineno + 1)
    else malformedLineNos rest (lineno + 1)

/-- Names of the lines that classify as records, in file order. -/
def recordNames : List (List Nat) → List (List Nat)
  | [] => []
  | line :: rest =>
    match classifyLine line with
    | .record nm _ _ _ => nm :: recordNames rest
    | _ => recordNames rest

theorem upsert_names_mem (nm : List Nat) (k : Key) :
    ∀ (m : List (List Nat × Key)) (x : List Nat),
    x ∈ (upsert m nm k).map (·.1) ↔ x = nm ∨ x ∈ m.map (·.1) := by
  intro m
  induction m with
  | nil => intro x; simp [upsert]
  | cons p rest ih =>
    intro x
    obtain ⟨n', k'⟩ := p
    simp only [upsert]
    split
    · rename_i hbeq
      have : n' = nm := by simpa using hbeq
      subst this
      simp
    · simp only [List.map_cons, List.mem_cons, ih]
      tauto

theorem analyzeLine_classify (line : List Nat) (c : Nat) :
    (analyzeLine line c = .blank ↔ classifyLine line = .blank)
    ∧ (analyzeLine line c = .malformed ↔ classifyLine line = .malformed) := by
  unfold analyzeLine
  cases classifyLine line <;> simp

theorem loadLoop_warnings : ∀ (lines : List (List Nat)) (lineno cursor : Nat)
    (ks : List (List Nat × Key)) (ws : List Nat),
    (loadLoop lines lineno cursor ks ws).2 = ws ++ malformedLineNos lines lineno := by
  intro lines
  induction lines with
  | nil => intro lineno cursor ks ws; simp [loadLoop, malformedLineNos]
  | cons line rest ih =>
    intro lineno cursor ks ws
    simp only [loadLoop]
    cases hcl : classifyLine line with
    | blank =>
      have ha : analyzeLine line (cursor + line.length) = .blank := by
        unfold analyzeLine; rw [hcl]
      rw [ha]
      simp only [malformedLineNos, hcl]
      rw [ih]
      simp
    | malformed =>
      have ha : analyzeLine line (cursor + line.length) = .malformed := by
        unfold analyzeLine; rw [hcl]
      rw [ha]
      simp only [malformedLineNos, hcl]
      rw [ih]
      simp
    | record nm raw digits hctr =>
      have ha : analyzeLine line (cursor + line.length)
          = .record nm ⟨raw, digits,
              if hctr then cursor + line.length - counterLen
                - (if line.getLast? = some 10 then 1 else 0) else 0⟩ := by
        unfold analyzeLine; rw [hcl]
      rw [ha]
      simp only [malformedLineNos, hcl]
      rw [ih]
      simp

theorem loadLoop_names : ∀ (lines : List (List Nat)) (lineno cursor : Nat)
    (ks : List (List Nat × Key)) (ws : List Nat) (x : List Nat),
    x ∈ (loadLoop lines lineno cursor ks ws).1.map (·.1)
      ↔ x ∈ ks.map (·.1) ∨ x ∈ recordNames lines := by
  intro lines
  induction lines with
  | nil => intro lineno cursor ks ws x; simp [loadLoop, recordNames]
  | cons line rest ih =>
    intro lineno cursor ks ws x
    simp only [loadLoop]
    cases hcl : classifyLine line with
    | blank =>
      have ha : analyzeLine line (cursor + line.length) = .blank := by
        unfold analyzeLine; rw [hcl]
      rw [ha]
      simp only [recordNames, hcl]
      exact ih _ _ _ _ x
    | malformed =>
      have ha : analyzeLine line (cursor + line.length) = .malformed := by
        unfold analyzeLine; rw [hcl]
      rw [ha]
      simp only [recordNames, hcl]
      exact ih _ _ _ _ x
    | record nm raw digits hctr =>
      have ha : analyzeLine line (cursor + line.length)
          = .record nm ⟨raw, digits,
              if hctr then cursor + line.length - counterLen
                - (if line.getLast? = some 10 then 1 else 0) else 0⟩ := by
        unfold analyzeLine; rw [hcl]
      rw [ha]
      simp only [recordNames, hcl]
      rw [ih, upsert_names_mem]
      simp only [List.mem_cons]
      tauto

/-- C8.  `load` never aborts on a bad line: its warning list is exactly
the 1-based line numbers of the lines that fail to parse (wrong shape,
secret failing base32 decode, or a counter field that is not exactly 20
decimal digits fitting 64 bits), every such line contributes no record,
and the names of all remaining valid record lines are exactly the names
the returned keychain maps — demonstrated also on a concrete file whose
second line is malformed. -/
theorem load_skips_malformed :
    (∀ data : List Nat,
      (readKeychain data).warnings = malformedLineNos (splitAfterNL data) 1
      ∧ ∀ nm, nm ∈ namesOf (readKeychain data) ↔ nm ∈ recordNames (splitAfterNL data))
    ∧ (readKeychain
        (bs "github 6 MZXW6YTB\nbad line\nmy bank 8 MZXW6YTB 00000000000000000007\n")).warnings
      = [2]
    ∧ namesOf (readKeychain
        (bs "github 6 MZXW6YTB\nbad line\nmy bank 8 MZXW6YTB 00000000000000000007\n"))
      = [bs "github", bs "my bank"] := by
  refine ⟨?_, by decide, by decide⟩
  intro data
  constructor
  · dsimp only [readKeychain]
    rw [loadLoop_warnings]
    simp
  · intro nm
    dsimp only [namesOf, readKeychain]
    rw [loadLoop_names]
    simp

end TwoFA

namespace TwoFA

/-! ### Claim C9: `showAll` computes TOTP codes only and never writes -/

/-- The entry `showAll` prints for one stored name: the TOTP code for a
time-based key, a dash placeholder (`'-'` times the digit count) for a
counter-based key. -/
def showEntry (keys : List (List Nat × Key)) (tn : Nat) (nm : List Nat) : List Nat :=
  let k := (findKey keys nm).getD ⟨[], 0, 0⟩
  if k.offset = 0 then padNum k.digits (totp k.raw tn k.digits)
  else List.replicate k.digits 45

theorem codeOp_totp (data : List Nat) (k : Key) (tn : Nat) (w : Bool) (h : k.offset = 0) :
    codeOp data k tn w = .ok (padNum k.digits (totp k.raw tn k.digits), data) := by
  unfold codeOp
  rw [if_neg (by simp [h])]

theorem showAllLoop_spec (keys : List (List Nat × Key)) (tn : Nat) :
    ∀ (nms : List (List Nat)) (data : List Nat),
    showAllLoop keys tn nms data
      = .ok (nms.map (fun nm => (showEntry keys tn nm, nm)), data) := by
  intro nms
  induction nms with
  | nil => intro data; rfl
  | cons nm rest ih =>
    intro data
    simp only [showAllLoop]
    by_cases h : ((findKey keys nm).getD ⟨[], 0, 0⟩).offset = 0
    · rw [if_pos h, codeOp_totp data _ tn true h]
      dsimp only
      rw [ih]
      dsimp only
      simp [showEntry, h]
    · rw [if_neg h, ih]
      dsimp only
      have hse : showEntry keys tn nm
          = List.replicate ((findKey keys nm).getD ⟨[], 0, 0⟩).digits 45 := by
        simp [showEntry, h]
      simp [hse]

/-- C9.  `showAll` always succeeds and leaves the keychain file bytes
entirely unchanged (it never advances any stored counter); every
stored record whose counter offset is zero (TOTP mode) is reported with
its computed code, and every record with a counter offset (HOTP mode)
is reported with a placeholder of `digitCount` dashes instead of a
code. -/
theorem showAll_no_side_effect :
    (∀ (kc : Keychain) (tn : Nat),
      showAll kc tn
        = .ok ((sortGo lexLess (namesOf kc)).map
            (fun nm => (showEntry kc.keys tn nm, nm)), kc.data))
    ∧ (∀ (keys : List (List Nat × Key)) (tn : Nat) (nm : List Nat) (k : Key),
        findKey keys nm = some k → k.offset ≠ 0 →
        showEntry keys tn nm = List.replicate k.digits 45)
    ∧ (∀ (keys : List (List Nat × Key)) (tn : Nat) (nm : List Nat) (k : Key),
        findKey keys nm = some k → k.offset = 0 →
        showEntry keys tn nm = padNum k.digits (totp k.raw tn k.digits)) := by
  refine ⟨?_, ?_, ?_⟩
  · intro kc tn
    unfold showAll namesOf
    exact showAllLoop_spec kc.keys tn _ kc.data
  · intro keys tn nm k hfind hoff
    simp [showEntry, hfind, hoff]
  · intro keys tn nm k hfind hoff
    simp [showEntry, hfind, hoff]

/-- C9, witness: on a keychain with one TOTP and one HOTP record, the
HOTP record's entry is the dash placeholder and the TOTP record's entry
is its computed code. -/
theorem showAll_no_side_effect_witness :
    (findKey (readKeychain
        (bs "github 6 MZXW6YTB\nmy bank 7 MZXW6YTB 00000000000000000042\n")).keys
        (bs "my bank") = some ⟨bs "fooba", 7, 37⟩
      ∧ (⟨bs "fooba", 7, 37⟩ : Key).offset ≠ 0
      ∧ findKey (readKeychain
          (bs "github 6 MZXW6YTB\nmy bank 7 MZXW6YTB 00000000000000000042\n")).keys
          (bs "github") = some ⟨bs "fooba", 6, 0⟩
      ∧ (⟨bs "fooba", 6, 0⟩ : Key).offset = 0)
    ∧ showEntry (readKeychain
        (bs "github 6 MZXW6YTB\nmy bank 7 MZXW6YTB 00000000000000000042\n")).keys
        59000000000 (bs "my bank") = List.replicate 7 45
    ∧ showEntry (readKeychain
        (bs "github 6 MZXW6YTB\nmy bank 7 MZXW6YTB 00000000000000000042\n")).keys
        59000000000 (bs "github")
      = padNum 6 (totp (bs "fooba") 59000000000 6) := by
  refine ⟨⟨by decide, by decide, by decide, by decide⟩, ?_, ?_⟩
  · exact showAll_no_side_effect.2.1 _ 59000000000 (bs "my bank") ⟨bs "fooba", 7, 37⟩
      (by decide) (by decide)
  · exact showAll_no_side_effect.2.2 _ 59000000000 (bs "github") ⟨bs "fooba", 6, 0⟩
      (by decide) (by decide)

end TwoFA
